import Mathlib

/-!
Verification of the markdown pipe-table extraction core of `openclaw`
(`src/slack/table-blocks.ts` and its rich-text sibling).

Strings are modelled as `List Char`; every JavaScript string operation the
code uses (`split`, `trim`, `slice`, `startsWith`, `endsWith`, `includes`)
is embedded explicitly.  The two inline regexes are embedded as recursive
scanners with JavaScript semantics: leftmost match, alternatives tried in
source order at each position, non-greedy `(.+?)` content (shortest body,
`.` never matches a newline), `[^x]+` classes (newline allowed).  JS `\s`
and `String.trim` are modelled over the ASCII whitespace characters.
-/

namespace SlackTables

abbrev Str := List Char

/-- Turn a string literal into the character-list model. -/
def str (s : String) : Str := s.data

/-- ASCII whitespace, the model of JS `\s` / `String.prototype.trim`. -/
def isWsChar (c : Char) : Bool :=
  c = ' ' || c = '\t' || c = '\n' || c = '\r' || c = '\x0b' || c = '\x0c'

/-- JS `s.trimStart()`. -/
def trimStart (s : Str) : Str := s.dropWhile isWsChar

/-- JS `s.trimEnd()`. -/
def trimEnd (s : Str) : Str := (s.reverse.dropWhile isWsChar).reverse

/-- JS `s.trim()`. -/
def trim (s : Str) : Str := trimEnd (trimStart s)

/-- JS `text.split(d)` for a single-character separator. -/
def splitOnChar (d : Char) : Str → List Str
  | [] => [[]]
  | c :: cs =>
    let r := splitOnChar d cs
    if c = d then [] :: r
    else
      match r with
      | [] => [[c]]
      | h :: t => (c :: h) :: t

/-- `parts.join(String d)`: separator between parts, none at the end. -/
def joinChar (d : Char) : List Str → Str
  | [] => []
  | l :: ls =>
    match ls with
    | [] => l
    | _ :: _ => l ++ d :: joinChar d ls

/-- Every part followed by the separator (used to reason about offsets). -/
def joinAll (d : Char) : List Str → Str
  | [] => []
  | l :: ls => l ++ d :: joinAll d ls

/-- `Σ (line.length + 1)`, the character-offset arithmetic of the source. -/
def sumLens : List Str → Nat
  | [] => 0
  | l :: ls => l.length + 1 + sumLens ls

/-- JS `line.replace(/^\|/, "")`. -/
def stripLeadPipe : Str → Str
  | [] => []
  | c :: r => if c = '|' then r else c :: r

/-- JS `line.replace(/\|$/, "")`. -/
def stripTrailPipe (l : Str) : Str :=
  match l.reverse with
  | [] => l
  | c :: r => if c = '|' then r.reverse else l

/-- `parsePipeRow` of the source: strip one leading and one trailing pipe,
split on `|`, trim each cell. -/
def parsePipeRow (line : Str) : List Str :=
  (splitOnChar '|' (stripTrailPipe (stripLeadPipe line))).map trim

/-- The `:?` of the separator-cell regex: consume one leading colon if present. -/
def stripColon (l : Str) : Str :=
  match l with
  | [] => l
  | c :: t => if c = ':' then t else l

/-- The separator-cell regex `/^\s*:?-+:?\s*$/` (its char classes are
disjoint, so the backtracking match is this deterministic scan). -/
def sepCellOk (cell : Str) : Bool :=
  let r1 := cell.dropWhile isWsChar
  let r2 := stripColon r1
  let ds := r2.takeWhile (fun c => c = '-')
  let r3 := r2.dropWhile (fun c => c = '-')
  let r4 := stripColon r3
  !ds.isEmpty && (r4.dropWhile isWsChar).isEmpty

/-- `isSeparatorRow` of the source. -/
def isSeparatorRow (line : Str) : Bool :=
  match line with
  | [] => false
  | c :: _ =>
    if c = '|' then (splitOnChar '|' (stripTrailPipe (stripLeadPipe line))).all sepCellOk
    else false

/-- The header-candidate test of the locator:
`line.startsWith("|") && line.endsWith("|") && line.includes("|", 1)`. -/
def isHeaderCandidate (line : Str) : Bool :=
  line.head? == some '|' && line.getLast? == some '|' && (line.drop 1).contains '|'

/-- The mutable locals of `extractFirstTable`'s scanning loop. -/
structure ScanState where
  inTable : Bool
  pastSeparator : Bool
  tableStart : Int
  tableEnd : Int
  headers : List Str
  rows : List (List Str)
deriving Repr, DecidableEq

def initScan : ScanState :=
  { inTable := false, pastSeparator := false, tableStart := -1, tableEnd := -1,
    headers := [], rows := [] }

/-- One iteration of `extractFirstTable`'s `for` loop at index `i`:
`line0` is `lines[i]`, `nxt` is `lines[i+1]` (the separator lookahead).
`some st'` continues with the updated locals (the loop's `continue`),
`none` is the loop's `break`. -/
def scanStep (line0 : Str) (nxt : Option Str) (i : Nat) (st : ScanState) :
    Option ScanState :=
  let line := trim line0
  if st.inTable = false then
    if isHeaderCandidate line then
      let cells := parsePipeRow line
      if 1 ≤ cells.length then
        match nxt with
        | some nl =>
          if !(trim nl).isEmpty && isSeparatorRow (trim nl) then
            some { st with inTable := true, pastSeparator := false,
                           tableStart := (i : Int), headers := cells }
          else some st
        | none => some st
      else some st
    else some st
  else if st.pastSeparator = false then
    if isSeparatorRow line then some { st with pastSeparator := true }
    else some { st with inTable := false, headers := [] }
  else if line.head? == some '|' then
    some { st with rows := st.rows ++ [parsePipeRow line], tableEnd := (i : Int) }
  else none

/-- The `for (let i = 0; ...)` loop of `extractFirstTable`; `rem` is the
lines not yet scanned (`lines.drop i`), `i` the current index. -/
def scanLoop : List Str → Nat → ScanState → ScanState
  | [], _, st => st
  | l :: rest, i, st =>
    match scanStep l rest.head? i st with
    | some st' => scanLoop rest (i + 1) st'
    | none => st

/-- `TableData` of the source (`end` is `endPos` here: `end` is reserved). -/
structure TableData where
  headers : List Str
  rows : List (List Str)
  start : Nat
  endPos : Nat
deriving Repr, DecidableEq

/-- `extractFirstTable` of the source.  The provisional `charEnd` the code
computes first is dead (immediately recomputed), so only the final offset
computation appears: `charStart = Σ_{i<tableStart} (len+1)` and
`charEnd = Σ_{i ≤ max(tableEnd, tableStart+1)} (len+1)`. -/
def extractFirstTable (text : Str) : Option TableData :=
  let lines := splitOnChar '\n' text
  let st := scanLoop lines 0 initScan
  if st.inTable = false ∨ st.headers.length = 0 ∨ st.rows.length = 0 then none
  else
    let lastLine := max st.tableEnd (st.tableStart + 1)
    some { headers := st.headers.take 20
           rows := (st.rows.take 99).map (fun r => r.take 20)
           start := sumLens (lines.take st.tableStart.toNat)
           endPos := sumLens (lines.take (lastLine.toNat + 1)) }

/-! ## The inline-markdown tokenizer (`parseInlineMarkdown`) -/

structure RunStyle where
  bold : Bool := false
  italic : Bool := false
  strike : Bool := false
  code : Bool := false
deriving Repr, DecidableEq

inductive RichTextElement where
  | text (txt : Str) (style : Option RunStyle)
  | link (txt : Str) (url : Str)
deriving Repr, DecidableEq

def RichTextElement.textOf : RichTextElement → Str
  | .text t _ => t
  | .link t _ => t

/-- Non-greedy body then a two-character closing delimiter `d d`, as in
`(.+?)\*\*`: the shortest non-empty newline-free body such that the
closing pair follows immediately. -/
def scanClose2 (d : Char) : Str → Option (Str × Str)
  | [] => none
  | a :: rest =>
    if a = '\n' then none
    else
      match rest with
      | b :: c :: r =>
        if b = d ∧ c = d then some ([a], r)
        else (scanClose2 d rest).map (fun p => (a :: p.1, p.2))
      | _ => none

/-- Non-greedy body then a one-character closing delimiter, as in `(.+?)\*`. -/
def scanClose1 (d : Char) : Str → Option (Str × Str)
  | [] => none
  | a :: rest =>
    if a = '\n' then none
    else
      match rest with
      | b :: r =>
        if b = d then some ([a], r)
        else (scanClose1 d rest).map (fun p => (a :: p.1, p.2))
      | [] => none

/-- `([^d]+)d`: a non-empty body free of `d` (newlines allowed), closed by
the first `d`. -/
def scanToChar (d : Char) : Str → Option (Str × Str)
  | [] => none
  | a :: rest =>
    if a = d then none
    else
      match rest with
      | b :: r =>
        if b = d then some ([a], r)
        else (scanToChar d rest).map (fun p => (a :: p.1, p.2))
      | [] => none

/-- The backtick character (kept out of literals). -/
def tick : Char := Char.ofNat 96

def tryBoldStar : Str → Option (RichTextElement × Str)
  | a :: b :: r =>
    if a = '*' ∧ b = '*' then
      (scanClose2 '*' r).map (fun p => (.text p.1 (some { bold := true }), p.2))
    else none
  | _ => none

def tryBoldUnder : Str → Option (RichTextElement × Str)
  | a :: b :: r =>
    if a = '_' ∧ b = '_' then
      (scanClose2 '_' r).map (fun p => (.text p.1 (some { bold := true }), p.2))
    else none
  | _ => none

def tryItalStar : Str → Option (RichTextElement × Str)
  | a :: r =>
    if a = '*' then
      (scanClose1 '*' r).map (fun p => (.text p.1 (some { italic := true }), p.2))
    else none
  | _ => none

def tryItalUnder : Str → Option (RichTextElement × Str)
  | a :: r =>
    if a = '_' then
      (scanClose1 '_' r).map (fun p => (.text p.1 (some { italic := true }), p.2))
    else none
  | _ => none

def tryStrike : Str → Option (RichTextElement × Str)
  | a :: b :: r =>
    if a = '~' ∧ b = '~' then
      (scanClose2 '~' r).map (fun p => (.text p.1 (some { strike := true }), p.2))
    else none
  | _ => none

def tryCodeSpan : Str → Option (RichTextElement × Str)
  | c :: r =>
    if c = tick then (scanToChar tick r).map (fun p => (.text p.1 (some { code := true }), p.2))
    else none
  | [] => none

def tryLink : Str → Option (RichTextElement × Str)
  | [] => none
  | a :: r =>
    if a = '[' then
      match scanToChar ']' r with
      | some (txt, rest2) =>
        match rest2 with
        | [] => none
        | b :: r3 => if b = '(' then (scanToChar ')' r3).map (fun p => (.link txt p.1, p.2)) else none
      | none => none
    else none

/-- One attempt of the alternation
`\*\*(.+?)\*\*|__(.+?)__|\*(.+?)\*|_(.+?)_|~~(.+?)~~|X([^X]+)X|\[([^\]]+)\]\(([^)]+)\)`
(X the backtick) at the head of `t`, alternatives in the source's order. -/
def tryMatchAt (t : Str) : Option (RichTextElement × Str) :=
  match tryBoldStar t with
  | some v => some v
  | none =>
  match tryBoldUnder t with
  | some v => some v
  | none =>
  match tryItalStar t with
  | some v => some v
  | none =>
  match tryItalUnder t with
  | some v => some v
  | none =>
  match tryStrike t with
  | some v => some v
  | none =>
  match tryCodeSpan t with
  | some v => some v
  | none => tryLink t

/-- The leftmost match of the alternation: the unmatched gap before it, the
matched element and the remaining text, as `RegExp.exec` produces them. -/
def findFirstMatch : Str → Option (Str × RichTextElement × Str)
  | [] => none
  | c :: cs =>
    match tryMatchAt (c :: cs) with
    | some (e, rest) => some ([], e, rest)
    | none => (findFirstMatch cs).map (fun p => (c :: p.1, p.2))

/-- The `while ((match = inlineRe.exec(text)))` loop: gaps are pushed when
non-empty, the leftover after the last match is pushed when non-empty.
Fuel-indexed (every match consumes at least three characters, so
`text.length` fuel never runs out; see `scanFuel_fuel_irrel`). -/
def scanFuel : Nat → Str → List RichTextElement
  | 0, t => if t.isEmpty then [] else [.text t none]
  | n + 1, t =>
    match findFirstMatch t with
    | none => if t.isEmpty then [] else [.text t none]
    | some (g, e, r) =>
      (if g.isEmpty then [] else [RichTextElement.text g none]) ++ e :: scanFuel n r

/-- `parseInlineMarkdown` of the source (its final "nothing parsed"
fallback included). -/
def parseInlineMarkdown (text : Str) : List RichTextElement :=
  let elements := scanFuel text.length text
  if elements.isEmpty && !text.isEmpty then [.text text none] else elements

/-! ## `hasInlineFormatting` -/

/-- Existence of a match of `\(.+?\)`-style closing after `(`: some `)` at
index ≥ 1 with only non-newline characters before it. -/
def parenCloseExists : Str → Bool
  | [] => false
  | a :: rest => a != '\n' && (rest.head? == some ')' || parenCloseExists rest)

/-- Existence of a match of `.+?\]\(.+?\)` after `[`. -/
def brackCloseExists : Str → Bool
  | [] => false
  | a :: rest =>
    a != '\n' &&
      ((match rest with
        | b :: c :: r2 => b = ']' && c = '(' && parenCloseExists r2
        | _ => false) ||
        brackCloseExists rest)

/-- One position of the detector regex
`\*\*.+?\*\*|__.+?__|\*.+?\*|_.+?_|~~.+?~~|X[^X]+X|\[.+?\]\(.+?\)`. -/
def hasMarkerAt (t : Str) : Bool :=
  (tryBoldStar t).isSome || (tryBoldUnder t).isSome || (tryItalStar t).isSome ||
  (tryItalUnder t).isSome || (tryStrike t).isSome || (tryCodeSpan t).isSome ||
  (match t with
   | [] => false
   | a :: r => a = '[' && brackCloseExists r)

/-- `hasInlineFormatting` of the source (`RegExp.test`: a match anywhere). -/
def hasInlineFormatting : Str → Bool
  | [] => false
  | c :: cs => hasMarkerAt (c :: cs) || hasInlineFormatting cs

/-! ## Cells, blocks and the facade (rich-text implementation) -/

inductive TableCell where
  | raw_text (text : Str)
  | rich_text (sections : List (List RichTextElement))
deriving Repr, DecidableEq

/-- `buildCell` of the rich-text implementation. -/
def buildCell (text : Str) : TableCell :=
  let trimmed := if (trim text).isEmpty then [' '] else trim text
  if hasInlineFormatting trimmed then .rich_text [parseInlineMarkdown trimmed]
  else .raw_text trimmed

/-- U+2013 EN DASH, the `"–"` literal of the rich-text implementation. -/
def enDash : Char := Char.ofNat 8211

def dashStr : Str := [enDash]

structure ColumnSetting where
  is_wrapped : Bool
deriving Repr, DecidableEq

structure TableBlock where
  column_settings : List ColumnSetting
  rows : List (List TableCell)
deriving Repr, DecidableEq

/-- `buildTableBlock` of the rich-text implementation. -/
def buildTableBlock (table : TableData) : TableBlock :=
  let headerRow := table.headers.map (fun h => buildCell (if h.isEmpty then [' '] else h))
  let dataRows := table.rows.map (fun row =>
    (List.range table.headers.length).map (fun i => buildCell (row.getD i dashStr)))
  { column_settings := table.headers.map (fun _ => { is_wrapped := true }),
    rows := headerRow :: dataRows }

structure SlackTableExtraction where
  text : Str
  tableBlock : Option TableBlock
deriving Repr, DecidableEq

/-- `[before, after].filter(Boolean).join("\n\n")`. -/
def joinParts : List Str → Str
  | [] => []
  | p :: ps =>
    match ps with
    | [] => p
    | _ :: _ => p ++ '\n' :: '\n' :: joinParts ps

/-- `extractSlackTableBlock` of the rich-text implementation. -/
def extractSlackTableBlock (markdown : Str) : SlackTableExtraction :=
  match extractFirstTable markdown with
  | none => { text := markdown, tableBlock := none }
  | some table =>
    let before := trimEnd (markdown.take table.start)
    let after := trimStart (markdown.drop table.endPos)
    { text := joinParts ([before, after].filter (fun p => !p.isEmpty)),
      tableBlock := some (buildTableBlock table) }

/-! ## The raw_text-only implementation (`src/slack/table-blocks.ts`) -/

/-- Its locator: character-for-character the same code as
`extractFirstTable` above. -/
def extractFirstTableRaw (text : Str) : Option TableData :=
  let lines := splitOnChar '\n' text
  let st := scanLoop lines 0 initScan
  if st.inTable = false ∨ st.headers.length = 0 ∨ st.rows.length = 0 then none
  else
    let lastLine := max st.tableEnd (st.tableStart + 1)
    some { headers := st.headers.take 20
           rows := (st.rows.take 99).map (fun r => r.take 20)
           start := sumLens (lines.take st.tableStart.toNat)
           endPos := sumLens (lines.take (lastLine.toNat + 1)) }

/-- The `"â€“"` literal of `table-blocks.ts` as stored on disk: the bytes of
U+2013 mis-decoded once, i.e. the three characters U+00E2, U+20AC, U+201C. -/
def dashRawStr : Str := [Char.ofNat 0xE2, Char.ofNat 0x20AC, Char.ofNat 0x201C]

/-- `buildTableBlock` of `table-blocks.ts`: raw_text cells only, data cells
re-trimmed and blank cells replaced by a space. -/
def buildTableBlockRaw (table : TableData) : TableBlock :=
  let headerRow := table.headers.map (fun h =>
    TableCell.raw_text (if h.isEmpty then [' '] else h))
  let dataRows := table.rows.map (fun row =>
    (List.range table.headers.length).map (fun i =>
      let v := trim (row.getD i dashRawStr)
      TableCell.raw_text (if v.isEmpty then [' '] else v)))
  { column_settings := table.headers.map (fun _ => { is_wrapped := true }),
    rows := headerRow :: dataRows }

/-- `extractSlackTableBlock` of `table-blocks.ts`. -/
def extractSlackTableBlockRaw (markdown : Str) : SlackTableExtraction :=
  match extractFirstTableRaw markdown with
  | none => { text := markdown, tableBlock := none }
  | some table =>
    let before := trimEnd (markdown.take table.start)
    let after := trimStart (markdown.drop table.endPos)
    { text := joinParts ([before, after].filter (fun p => !p.isEmpty)),
      tableBlock := some (buildTableBlockRaw table) }

/-! ## Concrete inputs used to instantiate the theorems -/

def exInput : Str := str "intro\n| a | b |\n| --- | --- |\n| 1 | 2 |\nafter text"

def exTable : TableData :=
  { headers := [str "a", str "b"], rows := [[str "1", str "2"]],
    start := 6, endPos := 40 }

def exInput2 : Str := str "x\n| a | b |\n| --- | --- |\n| 1 | 2 |"

/-- A short data row (fewer cells than headers), for the padding example. -/
def exShortRow : TableData :=
  { headers := [str "a", str "b"], rows := [[str "1"]], start := 0, endPos := 0 }

/-- `|c|c|...|c|` with `n` one-character cells. -/
def pipeRow (c : Char) (n : Nat) : Str := '|' :: (List.replicate n [c, '|']).flatten

/-- An oversized table: 21 columns and 100 data rows, so both the column
and the row limits truncate the structured result. -/
def exWideInput : Str :=
  joinChar '\n' ([str "pre"] ++ [pipeRow 'c' 21] ++ [pipeRow '-' 21] ++
    List.replicate 100 (pipeRow 'x' 21) ++ [str "post"])

/-- What locating `exWideInput` yields: 20 of the 21 columns, 99 of the
100 data rows, but offsets spanning the whole block (up to `"post"`). -/
def exWideTable : TableData :=
  { headers := List.replicate 20 ['c'],
    rows := List.replicate 99 (List.replicate 20 ['x']),
    start := 4, endPos := 4492 }

def exTable2 : TableData :=
  { headers := [str "a", str "b"], rows := [[str "1", str "2"]],
    start := 2, endPos := 36 }

/-! ## Invariant predicates for the scan loop -/

/-- What holds of the loop locals before processing index `i`. -/
def ScanInv (L : List Str) (i : Nat) (st : ScanState) : Prop :=
  (st.inTable = true → st.pastSeparator = false →
    st.tableStart + 1 = (i : Int) ∧ 0 ≤ st.tableStart) ∧
  (st.inTable = true → st.pastSeparator = true →
    st.tableStart + 2 ≤ (i : Int) ∧ 0 ≤ st.tableStart) ∧
  (st.rows ≠ [] → st.inTable = true ∧ st.pastSeparator = true ∧
    0 ≤ st.tableStart ∧ st.tableStart + 2 ≤ st.tableEnd ∧
    st.tableEnd < (L.length : Int)) ∧
  (∀ c ∈ st.headers, trim c = c) ∧
  (∀ r ∈ st.rows, ∀ c ∈ r, trim c = c)

/-- The index-free part of `ScanInv`: what the loop's result satisfies. -/
def ScanFinal (L : List Str) (st : ScanState) : Prop :=
  (st.rows ≠ [] → st.inTable = true ∧ st.pastSeparator = true ∧
    0 ≤ st.tableStart ∧ st.tableStart + 2 ≤ st.tableEnd ∧
    st.tableEnd < (L.length : Int)) ∧
  (∀ c ∈ st.headers, trim c = c) ∧
  (∀ r ∈ st.rows, ∀ c ∈ r, trim c = c)

/-! # Theorems -/

/-! ## Whitespace and trimming -/

theorem mem_of_mem_trimStart {c : Char} {l : Str} (h : c ∈ trimStart l) : c ∈ l :=
  (List.dropWhile_sublist isWsChar).mem h

theorem mem_of_mem_trimEnd {c : Char} {l : Str} (h : c ∈ trimEnd l) : c ∈ l := by
  have : c ∈ l.reverse.dropWhile isWsChar := by
    simpa [trimEnd] using h
  simpa using (List.dropWhile_sublist isWsChar).mem this

theorem mem_of_mem_trim {c : Char} {l : Str} (h : c ∈ trim l) : c ∈ l :=
  mem_of_mem_trimStart (mem_of_mem_trimEnd h)

theorem trimStart_ws_decomp (l : Str) :
    ∃ w, (∀ c ∈ w, isWsChar c = true) ∧ l = w ++ trimStart l := by
  refine ⟨l.takeWhile isWsChar, ?_, ?_⟩
  · intro c hc; exact List.mem_takeWhile_imp hc
  · exact (List.takeWhile_append_dropWhile isWsChar l).symm

theorem trimEnd_ws_decomp (l : Str) :
    ∃ w, (∀ c ∈ w, isWsChar c = true) ∧ l = trimEnd l ++ w := by
  refine ⟨(l.reverse.takeWhile isWsChar).reverse, ?_, ?_⟩
  · intro c hc
    exact List.mem_takeWhile_imp (List.mem_reverse.mp hc)
  · have h := congrArg List.reverse (List.takeWhile_append_dropWhile isWsChar l.reverse)
    rw [List.reverse_append, List.reverse_reverse] at h
    exact h.symm

theorem trimStart_head_not_ws {l : Str} {c : Char} (h : (trimStart l).head? = some c) :
    isWsChar c = false := by
  induction l with
  | nil => simp [trimStart] at h
  | cons a t ih =>
    by_cases ha : isWsChar a
    · exact ih (by simpa [trimStart, List.dropWhile_cons, ha] using h)
    · have : a = c := by
        simpa [trimStart, List.dropWhile_cons, ha] using h
      subst this
      simpa using ha

theorem trimStart_eq_self_of_head {l : Str}
    (h : ∀ c, l.head? = some c → isWsChar c = false) : trimStart l = l := by
  cases l with
  | nil => rfl
  | cons a t =>
    have := h a rfl
    simp [trimStart, List.dropWhile_cons, this]

theorem trimEnd_idem (l : Str) : trimEnd (trimEnd l) = trimEnd l := by
  simp [trimEnd, List.dropWhile_idempotent]

theorem trim_idem (l : Str) : trim (trim l) = trim l := by
  show trimEnd (trimStart (trimEnd (trimStart l))) = trimEnd (trimStart l)
  have h1 : trimStart (trimEnd (trimStart l)) = trimEnd (trimStart l) := by
    apply trimStart_eq_self_of_head
    intro c hc
    cases hte : trimEnd (trimStart l) with
    | nil => rw [hte] at hc; simp at hc
    | cons a t =>
      rw [hte] at hc
      have hac : a = c := by simpa using hc
      subst hac
      apply trimStart_head_not_ws (l := l)
      rcases trimEnd_ws_decomp (trimStart l) with ⟨w, _, hw⟩
      rw [hw, hte]
      rfl
  rw [h1, trimEnd_idem]

/-! ## Splitting on a character, joining, offset sums -/

theorem trim_of_mem_parsePipeRow {line c : Str} (hc : c ∈ parsePipeRow line) :
    trim c = c := by
  rcases List.mem_map.mp hc with ⟨x, _, rfl⟩
  exact trim_idem x

theorem splitOnChar_ne_nil (d : Char) (l : Str) : splitOnChar d l ≠ [] := by
  induction l with
  | nil => simp [splitOnChar]
  | cons c cs ih =>
    by_cases hcd : c = d
    · simp [splitOnChar, hcd]
    · cases h : splitOnChar d cs with
      | nil => simp [splitOnChar, hcd, h]
      | cons p ps => simp [splitOnChar, hcd, h]

theorem joinChar_nil (d : Char) : joinChar d [] = [] := rfl

theorem joinChar_single (d : Char) (p : Str) : joinChar d [p] = p := rfl

theorem joinChar_cons2 (d : Char) (p q : Str) (qs : List Str) :
    joinChar d (p :: q :: qs) = p ++ d :: joinChar d (q :: qs) := rfl

theorem joinChar_splitOnChar (d : Char) (l : Str) :
    joinChar d (splitOnChar d l) = l := by
  induction l with
  | nil => rfl
  | cons c cs ih =>
    by_cases hcd : c = d
    · cases h : splitOnChar d cs with
      | nil => exact absurd h (splitOnChar_ne_nil d cs)
      | cons p ps =>
        rw [h] at ih
        subst hcd
        have hs : splitOnChar c (c :: cs) = [] :: p :: ps := by simp [splitOnChar, h]
        rw [hs, joinChar_cons2, ih]
        rfl
    · cases h : splitOnChar d cs with
      | nil => exact absurd h (splitOnChar_ne_nil d cs)
      | cons p ps =>
        rw [h] at ih
        have hs : splitOnChar d (c :: cs) = (c :: p) :: ps := by
          simp [splitOnChar, h, hcd]
        rw [hs]
        cases ps with
        | nil =>
          rw [joinChar_single]
          rw [joinChar_single] at ih
          rw [ih]
        | cons q qs =>
          rw [joinChar_cons2]
          rw [joinChar_cons2] at ih
          rw [List.cons_append, ih]

theorem sumLens_append (A B : List Str) :
    sumLens (A ++ B) = sumLens A + sumLens B := by
  induction A with
  | nil => simp [sumLens]
  | cons p ps ih => simp [sumLens, ih]; omega

theorem joinAll_length (d : Char) (L : List Str) :
    (joinAll d L).length = sumLens L := by
  induction L with
  | nil => simp [joinAll, sumLens]
  | cons p ps ih => simp [joinAll, sumLens, ih]; omega

theorem joinChar_length (d : Char) (L : List Str) (h : L ≠ []) :
    (joinChar d L).length + 1 = sumLens L := by
  induction L with
  | nil => exact absurd rfl h
  | cons p ps ih =>
    cases ps with
    | nil => simp [joinChar, sumLens]
    | cons q qs =>
      have h2 := ih (by simp)
      simp only [joinChar, sumLens] at h2 ⊢
      simp at h2 ⊢
      omega

theorem joinChar_take_drop (d : Char) (L : List Str) (k : Nat) (hk : k < L.length) :
    joinChar d L = joinAll d (L.take k) ++ joinChar d (L.drop k) := by
  revert hk
  induction L generalizing k with
  | nil => intro hk; simp at hk
  | cons p ps ih =>
    intro hk
    cases k with
    | zero => simp [joinAll]
    | succ k =>
      have hk' : k < ps.length := by simpa using hk
      cases ps with
      | nil => simp at hk'
      | cons q qs =>
        rw [List.take_succ_cons, List.drop_succ_cons, joinChar_cons2, ih k hk']
        simp [joinAll, List.append_assoc]

theorem take_sumLens_joinChar (d : Char) (L : List Str) (k : Nat) (hk : k < L.length) :
    (joinChar d L).take (sumLens (L.take k)) = joinAll d (L.take k) := by
  rw [joinChar_take_drop d L k hk, ← joinAll_length d (L.take k), List.take_left]

theorem drop_sumLens_joinChar (d : Char) (L : List Str) (k : Nat) (hk : k ≤ L.length) :
    (joinChar d L).drop (sumLens (L.take k)) = joinChar d (L.drop k) := by
  by_cases h : k < L.length
  · rw [joinChar_take_drop d L k h, ← joinAll_length d (L.take k), List.drop_left]
  · have hkl : k = L.length := le_antisymm hk (not_lt.mp h)
    subst hkl
    rw [List.take_length, List.drop_length, joinChar_nil]
    apply List.drop_eq_nil_of_le
    cases L with
    | nil => exact Nat.le_refl 0
    | cons p ps =>
      have h1 := joinChar_length d (p :: ps) (by simp)
      omega

theorem sumLens_take_le (M : List Str) (n : Nat) : sumLens (M.take n) ≤ sumLens M := by
  induction M generalizing n with
  | nil => simp [sumLens]
  | cons p ps ih =>
    cases n with
    | zero => simp [sumLens]
    | succ n =>
      simp only [List.take_succ_cons, sumLens]
      have := ih n
      omega

theorem sumLens_take_mono (L : List Str) {j k : Nat} (h : j ≤ k) :
    sumLens (L.take j) ≤ sumLens (L.take k) := by
  have heq : L.take j = (L.take k).take j := by
    rw [List.take_take, min_eq_left h]
  rw [heq]
  exact sumLens_take_le (L.take k) j

/-! ## The scan loop's invariant -/

theorem ScanInv_stay {L : List Str} {i : Nat} {st : ScanState}
    (hin : st.inTable = false) (hinv : ScanInv L i st) : ScanInv L (i + 1) st := by
  obtain ⟨_, _, h3, h4, h5⟩ := hinv
  refine ⟨?_, ?_, h3, h4, h5⟩ <;> intro hT <;> simp [hin] at hT

theorem scanStep_inv {L : List Str} {i : Nat} {st st' : ScanState} {l : Str}
    {nxt : Option Str} (hiL : i < L.length) (hinv : ScanInv L i st)
    (h : scanStep l nxt i st = some st') : ScanInv L (i + 1) st' := by
  obtain ⟨h1, h2, h3, h4, h5⟩ := hinv
  by_cases hin : st.inTable = false
  · -- Searching for a header candidate
    by_cases hhd : isHeaderCandidate (trim l) = true
    · by_cases hlen : 1 ≤ (parsePipeRow (trim l)).length
      · cases nxt with
        | none =>
          simp only [scanStep, hin, hhd, hlen, if_true, if_pos] at h
          obtain rfl : st = st' := Option.some.inj h
          exact ScanInv_stay hin ⟨h1, h2, h3, h4, h5⟩
        | some nl =>
          by_cases hsep : (!(trim nl).isEmpty && isSeparatorRow (trim nl)) = true
          · simp only [scanStep, hin, hhd, hlen, hsep, if_true, if_pos] at h
            rw [← Option.some.inj h]
            refine ⟨?_, ?_, ?_, ?_, h5⟩
            · intro _ _
              constructor
              · simp <;> omega
              · simp
            · intro _ hPS
              simp at hPS
            · intro hr
              obtain ⟨hT, -⟩ := h3 hr
              simp [hin] at hT
            · intro c hc
              exact trim_of_mem_parsePipeRow (by simpa using hc)
          · simp only [scanStep, hin, hhd, hlen, hsep, if_true, if_pos,
              Bool.if_false_right] at h
            rw [if_neg (by simpa using hsep)] at h
            obtain rfl : st = st' := Option.some.inj h
            exact ScanInv_stay hin ⟨h1, h2, h3, h4, h5⟩
      · simp only [scanStep, hin, hhd, hlen, if_true, if_pos, if_neg hlen] at h
        obtain rfl : st = st' := Option.some.inj h
        exact ScanInv_stay hin ⟨h1, h2, h3, h4, h5⟩
    · simp only [scanStep, hin, hhd, if_true, if_pos] at h
      rw [if_neg (by simpa using hhd)] at h
      obtain rfl : st = st' := Option.some.inj h
      exact ScanInv_stay hin ⟨h1, h2, h3, h4, h5⟩
  · have hin' : st.inTable = true := by
      revert hin; cases st.inTable <;> simp
    by_cases hps : st.pastSeparator = false
    · -- awaiting the separator line
      by_cases hsp : isSeparatorRow (trim l) = true
      · simp only [scanStep, hin', hps, hsp, if_true, if_pos, if_neg] at h
        rw [← Option.some.inj h]
        refine ⟨?_, ?_, ?_, h4, h5⟩
        · intro _ hPS
          simp at hPS
        · intro _ _
          obtain ⟨ha, hb⟩ := h1 hin' hps
          constructor
          · simp only []; omega
          · exact hb
        · intro hr
          obtain ⟨-, hPS, -⟩ := h3 hr
          simp [hps] at hPS
      · simp only [scanStep, hin', hps, hsp, if_true, if_pos, if_neg] at h
        rw [← Option.some.inj h]
        refine ⟨?_, ?_, ?_, ?_, h5⟩
        · intro hT
          simp at hT
        · intro hT
          simp at hT
        · intro hr
          obtain ⟨-, hPS, -⟩ := h3 hr
          simp [hps] at hPS
        · intro c hc
          simp at hc
    · have hps' : st.pastSeparator = true := by
        revert hps; cases st.pastSeparator <;> simp
      by_cases hpipe : (trim l).head? == some '|'
      · simp only [scanStep, hin', hps', hpipe, if_true, if_pos, if_neg] at h
        rw [← Option.some.inj h]
        obtain ⟨ha, hb⟩ := h2 hin' hps'
        refine ⟨?_, ?_, ?_, h4, ?_⟩
        · intro _ hPS
          simp at hPS
        · intro _ _
          constructor
          · simp <;> omega
          · exact hb
        · intro _
          refine ⟨rfl, rfl, hb, ?_, ?_⟩
          · simp <;> omega
          · simp
            exact_mod_cast hiL
        · intro r hr c hc
          rcases (show r ∈ st.rows ∨ r = parsePipeRow (trim l) by simpa using hr)
            with hro | rfl
          · exact h5 r hro c hc
          · exact trim_of_mem_parsePipeRow hc
      · simp only [scanStep, hin', hps', hpipe, if_true, if_pos, if_neg] at h
        cases h

theorem scanLoop_final {L : List Str} : ∀ (rem : List Str) (i : Nat) (st : ScanState),
    rem = L.drop i → ScanInv L i st → ScanFinal L (scanLoop rem i st) := by
  intro rem
  induction rem with
  | nil =>
    intro i st _ hinv
    exact hinv.2.2
  | cons l rest ih =>
    intro i st hrem hinv
    have hiL : i < L.length := by
      by_contra hge
      have hnil : L.drop i = [] := List.drop_eq_nil_of_le (not_lt.mp hge)
      exact absurd (hrem.trans hnil) (by simp)
    have hrest : rest = L.drop (i + 1) := by
      have h1 : L.drop (i + 1) = (L.drop i).drop 1 := by
        rw [List.drop_drop]
      rw [h1, ← hrem, List.drop_one, List.tail_cons]
    simp only [scanLoop]
    cases hstep : scanStep l rest.head? i st with
    | some st' =>
      exact ih (i + 1) st' hrest (scanStep_inv hiL hinv hstep)
    | none =>
      exact hinv.2.2

theorem ScanInv_init (L : List Str) : ScanInv L 0 initScan := by
  refine ⟨?_, ?_, ?_, ?_, ?_⟩
  · intro hT; simp [initScan] at hT
  · intro hT; simp [initScan] at hT
  · intro hr; simp [initScan] at hr
  · intro c hc; simp [initScan] at hc
  · intro r hr; simp [initScan] at hr

/-! ## What a successful extraction looks like -/

theorem extractFirstTable_some_spec {s : Str} {t : TableData}
    (h : extractFirstTable s = some t) :
    ∃ (st : ScanState) (k m : Nat), st = scanLoop (splitOnChar '\n' s) 0 initScan ∧
      st.headers ≠ [] ∧ st.rows ≠ [] ∧
      t.headers = st.headers.take 20 ∧
      t.rows = (st.rows.take 99).map (fun r => r.take 20) ∧
      st.tableStart = (k : Int) ∧ st.tableEnd = (m : Int) ∧
      k + 2 ≤ m ∧ m < (splitOnChar '\n' s).length ∧
      t.start = sumLens ((splitOnChar '\n' s).take k) ∧
      t.endPos = sumLens ((splitOnChar '\n' s).take (m + 1)) ∧
      (∀ c ∈ st.headers, trim c = c) ∧
      (∀ r ∈ st.rows, ∀ c ∈ r, trim c = c) := by
  simp only [extractFirstTable] at h
  have hfin : ScanFinal (splitOnChar '\n' s) (scanLoop (splitOnChar '\n' s) 0 initScan) :=
    scanLoop_final (splitOnChar '\n' s) 0 initScan (List.drop_zero _).symm
      (ScanInv_init _)
  set L := splitOnChar '\n' s with hL
  set st := scanLoop L 0 initScan with hst
  by_cases hc : st.inTable = false ∨ st.headers.length = 0 ∨ st.rows.length = 0
  · rw [if_pos hc] at h
    exact absurd h (by simp)
  · rw [if_neg hc] at h
    push_neg at hc
    obtain ⟨hin, hhl, hrl⟩ := hc
    have hheads : st.headers ≠ [] := by
      intro he; exact hhl (by simp [he])
    have hrows : st.rows ≠ [] := by
      intro he; exact hrl (by simp [he])
    obtain ⟨hmain, hhtrim, hrtrim⟩ := hfin
    obtain ⟨-, -, hts0, htse, hteL⟩ := hmain hrows
    have ht := (Option.some.inj h).symm
    have hmax : max st.tableEnd (st.tableStart + 1) = st.tableEnd :=
      max_eq_left (by omega)
    refine ⟨st, st.tableStart.toNat, st.tableEnd.toNat, rfl, hheads, hrows,
      ?_, ?_, ?_, ?_, ?_, ?_, ?_, ?_, hhtrim, hrtrim⟩
    · rw [ht]
    · rw [ht]
    · omega
    · omega
    · omega
    · omega
    · rw [ht]
    · rw [ht]
      simp only [hmax]

/-! ## C1: totality and the no-table path -/

theorem scanLoop_no_pipe : ∀ (rem : List Str), (∀ l ∈ rem, '|' ∉ l) → ∀ (i : Nat),
    scanLoop rem i initScan = initScan := by
  intro rem
  induction rem with
  | nil => intro _ _; rfl
  | cons l rest ih =>
    intro hnp i
    have hl : '|' ∉ trim l := fun hc => (hnp l (by simp)) (mem_of_mem_trim hc)
    have hhd : isHeaderCandidate (trim l) = false := by
      unfold isHeaderCandidate
      cases htl : trim l with
      | nil => rfl
      | cons a as =>
        have ha : a ≠ '|' := by
          intro he
          exact hl (by rw [htl, he]; exact List.mem_cons_self _ _)
        simp [ha]
    have hstep : scanStep l rest.head? i initScan = some initScan := by
      simp [scanStep, initScan, hhd]
    simp only [scanLoop, hstep]
    exact ih (fun l' hl' => hnp l' (by simp [hl'])) (i + 1)

/-- C1.  `extractSlackTableBlock` is a total function; whenever the locator
finds no table it returns the input unchanged with an absent block, and on
input none of whose lines contains a `|` the locator indeed finds none. -/
theorem extract_no_table_identity (markdown : Str) :
    (extractFirstTable markdown = none →
      extractSlackTableBlock markdown = { text := markdown, tableBlock := none }) ∧
    ((∀ l ∈ splitOnChar '\n' markdown, '|' ∉ l) →
      extractFirstTable markdown = none ∧
      extractSlackTableBlock markdown = { text := markdown, tableBlock := none }) := by
  constructor
  · intro h
    simp [extractSlackTableBlock, h]
  · intro hnp
    have hnone : extractFirstTable markdown = none := by
      simp only [extractFirstTable]
      rw [scanLoop_no_pipe _ hnp 0]
      simp [initScan]
    exact ⟨hnone, by simp [extractSlackTableBlock, hnone]⟩

/-! ## C5: a located table is never empty -/

/-- C5.  Whenever the locator returns a table, its header list and row list
are non-empty; a candidate with only a header and a separator line (zero
data rows) yields the absent result. -/
theorem extractFirstTable_nonempty :
    (∀ (s : Str) (t : TableData), extractFirstTable s = some t →
      t.headers ≠ [] ∧ t.rows ≠ []) ∧
    extractFirstTable (str "| a | b |\n| --- | --- |") = none := by
  constructor
  · intro s t h
    obtain ⟨st, k, m, -, hheads, hrows, hth, htr, -⟩ := extractFirstTable_some_spec h
    constructor
    · rw [hth]
      simp [List.take_eq_nil_iff, hheads]
    · rw [htr]
      simp [List.take_eq_nil_iff, hrows]
  · decide

/-! ## C3: hard limits and full-block offsets -/

/-- C3.  A located table is truncated at locate-time to at most 20 header
cells, at most 20 cells per data row and at most 99 data rows (the
truncation is `take`, applied to the scanned lists), while the character
offsets still span the entire contiguous block of consumed lines: `k` and
`m` below are pinned to the scan state's header line index (`tableStart`)
and last consumed line index (`tableEnd`), the offsets are the line-sums
up to those indices, everything before `start` is exactly the lines before
the header and everything from `end` on is exactly the lines after the
last consumed line — so the residual excises the whole original block even
when the structured table is smaller. -/
theorem extractFirstTable_limits_offsets (s : Str) (t : TableData)
    (h : extractFirstTable s = some t) :
    t.headers.length ≤ 20 ∧ t.rows.length ≤ 99 ∧ (∀ r ∈ t.rows, r.length ≤ 20) ∧
    t.headers = (scanLoop (splitOnChar '\n' s) 0 initScan).headers.take 20 ∧
    t.rows = ((scanLoop (splitOnChar '\n' s) 0 initScan).rows.take 99).map
      (fun r => r.take 20) ∧
    ∃ k m : Nat,
      (scanLoop (splitOnChar '\n' s) 0 initScan).tableStart = (k : Int) ∧
      (scanLoop (splitOnChar '\n' s) 0 initScan).tableEnd = (m : Int) ∧
      k + 2 ≤ m ∧ m < (splitOnChar '\n' s).length ∧
      t.start = sumLens ((splitOnChar '\n' s).take k) ∧
      t.endPos = sumLens ((splitOnChar '\n' s).take (m + 1)) ∧
      s.take t.start = joinAll '\n' ((splitOnChar '\n' s).take k) ∧
      s.drop t.endPos = joinChar '\n' ((splitOnChar '\n' s).drop (m + 1)) := by
  obtain ⟨st, k, m, hstq, hheads, hrows, hth, htr, hkts, hkte, hkm, hmL, hts, hte, -⟩ :=
    extractFirstTable_some_spec h
  have hs : joinChar '\n' (splitOnChar '\n' s) = s := joinChar_splitOnChar '\n' s
  set L := splitOnChar '\n' s with hLdef
  refine ⟨?_, ?_, ?_, ?_, ?_, k, m, ?_, ?_, hkm, hmL, hts, hte, ?_, ?_⟩
  · rw [hth]
    simp
  · rw [htr]
    simp
  · intro r hr
    rw [htr] at hr
    rcases List.mem_map.mp hr with ⟨r', -, rfl⟩
    simp
  · rw [hth, hstq]
  · rw [htr, hstq]
  · rw [← hstq]
    exact hkts
  · rw [← hstq]
    exact hkte
  · rw [hts]
    conv_lhs => rw [← hs]
    exact take_sumLens_joinChar '\n' L k (by omega)
  · rw [hte]
    conv_lhs => rw [← hs]
    exact drop_sumLens_joinChar '\n' L (m + 1) (by omega)

/-! ## C2: splicing the removed span back -/

/-- C2.  For any located table, the input splits as `pre ++ span ++ post`
at the `start`/`end` offsets, the residual text is exactly `trimEnd pre`
and `trimStart post` joined by a blank line (empty halves omitted), and
splicing the span back between the trimmed halves reconstructs the input
up to the whitespace trimmed at the two boundaries. -/
theorem extract_splice_reconstructs (s : Str) (t : TableData)
    (h : extractFirstTable s = some t) :
    s.take t.start ++ (s.drop t.start).take (t.endPos - t.start) ++ s.drop t.endPos = s ∧
    (extractSlackTableBlock s).text =
      joinParts ([trimEnd (s.take t.start), trimStart (s.drop t.endPos)].filter
        (fun p => !p.isEmpty)) ∧
    ∃ w₁ w₂, (∀ c ∈ w₁, isWsChar c = true) ∧ (∀ c ∈ w₂, isWsChar c = true) ∧
      s = trimEnd (s.take t.start) ++ w₁ ++ (s.drop t.start).take (t.endPos - t.start) ++
        w₂ ++ trimStart (s.drop t.endPos) := by
  obtain ⟨st, k, m, hstq, -, -, -, -, -, -, hkm, hmL, hts, hte, -⟩ :=
    extractFirstTable_some_spec h
  have hse : t.start ≤ t.endPos := by
    rw [hts, hte]
    exact sumLens_take_mono _ (by omega)
  have hrecon : s.take t.start ++ (s.drop t.start).take (t.endPos - t.start) ++
      s.drop t.endPos = s := by
    have h2 := List.take_append_drop (t.endPos - t.start) (s.drop t.start)
    have h3 : (s.drop t.start).drop (t.endPos - t.start) = s.drop t.endPos := by
      rw [List.drop_drop]
      congr 1
      omega
    rw [List.append_assoc, ← h3, h2, List.take_append_drop]
  refine ⟨hrecon, ?_, ?_⟩
  · simp [extractSlackTableBlock, h]
  · obtain ⟨w₁, hw₁, he₁⟩ := trimEnd_ws_decomp (s.take t.start)
    obtain ⟨w₂, hw₂, he₂⟩ := trimStart_ws_decomp (s.drop t.endPos)
    refine ⟨w₁, w₂, hw₁, hw₂, ?_⟩
    conv_lhs => rw [← hrecon, he₁, he₂]
    simp [List.append_assoc]

/-! ## The tokenizer's runs are non-empty and consume text -/

theorem scanClose2_spec (d : Char) : ∀ (l c r : Str), scanClose2 d l = some (c, r) →
    c ≠ [] ∧ r.length + 2 ≤ l.length := by
  intro l
  induction l with
  | nil => intro c r h; simp [scanClose2] at h
  | cons a rest ih =>
    intro c r h
    simp only [scanClose2] at h
    by_cases ha : a = '\n'
    · rw [if_pos ha] at h; cases h
    · rw [if_neg ha] at h
      cases rest with
      | nil => cases h
      | cons b rest2 =>
        cases rest2 with
        | nil => cases h
        | cons c2 r2 =>
          dsimp only at h
          by_cases hbc : b = d ∧ c2 = d
          · rw [if_pos hbc] at h
            injection h with h2
            injection h2 with hc hr
            subst hc hr
            refine ⟨by simp, by simp⟩
          · rw [if_neg hbc] at h
            rcases Option.map_eq_some'.mp h with ⟨⟨c', r'⟩, hs, hf⟩
            injection hf with hc hr
            subst hc hr
            obtain ⟨h1, h2⟩ := ih c' r' hs
            refine ⟨by simp, ?_⟩
            simp only [List.length_cons] at h2 ⊢
            omega

theorem scanClose1_spec (d : Char) : ∀ (l c r : Str), scanClose1 d l = some (c, r) →
    c ≠ [] ∧ r.length + 1 ≤ l.length := by
  intro l
  induction l with
  | nil => intro c r h; simp [scanClose1] at h
  | cons a rest ih =>
    intro c r h
    simp only [scanClose1] at h
    by_cases ha : a = '\n'
    · rw [if_pos ha] at h; cases h
    · rw [if_neg ha] at h
      cases rest with
      | nil => cases h
      | cons b r2 =>
        dsimp only at h
        by_cases hb : b = d
        · rw [if_pos hb] at h
          injection h with h2
          injection h2 with hc hr
          subst hc hr
          refine ⟨by simp, by simp⟩
        · rw [if_neg hb] at h
          rcases Option.map_eq_some'.mp h with ⟨⟨c', r'⟩, hs, hf⟩
          injection hf with hc hr
          subst hc hr
          obtain ⟨h1, h2⟩ := ih c' r' hs
          refine ⟨by simp, ?_⟩
          simp only [List.length_cons] at h2 ⊢
          omega

theorem scanToChar_spec (d : Char) : ∀ (l c r : Str), scanToChar d l = some (c, r) →
    c ≠ [] ∧ r.length + 1 ≤ l.length := by
  intro l
  induction l with
  | nil => intro c r h; simp [scanToChar] at h
  | cons a rest ih =>
    intro c r h
    simp only [scanToChar] at h
    by_cases ha : a = d
    · rw [if_pos ha] at h; cases h
    · rw [if_neg ha] at h
      cases rest with
      | nil => cases h
      | cons b r2 =>
        dsimp only at h
        by_cases hb : b = d
        · rw [if_pos hb] at h
          injection h with h2
          injection h2 with hc hr
          subst hc hr
          refine ⟨by simp, by simp⟩
        · rw [if_neg hb] at h
          rcases Option.map_eq_some'.mp h with ⟨⟨c', r'⟩, hs, hf⟩
          injection hf with hc hr
          subst hc hr
          obtain ⟨h1, h2⟩ := ih c' r' hs
          refine ⟨by simp, ?_⟩
          simp only [List.length_cons] at h2 ⊢
          omega

theorem tryBoldStar_spec {t : Str} {e : RichTextElement} {rest : Str}
    (h : tryBoldStar t = some (e, rest)) : e.textOf ≠ [] ∧ rest.length < t.length := by
  cases t with
  | nil => simp [tryBoldStar] at h
  | cons a t1 =>
    cases t1 with
    | nil => simp [tryBoldStar] at h
    | cons b r =>
      simp only [tryBoldStar] at h
      by_cases hab : a = '*' ∧ b = '*'
      · rw [if_pos hab] at h
        rcases Option.map_eq_some'.mp h with ⟨⟨c', r'⟩, hs, hf⟩
        injection hf with he hr
        subst he hr
        obtain ⟨h1, h2⟩ := scanClose2_spec '*' r c' r' hs
        refine ⟨by simpa [RichTextElement.textOf] using h1, ?_⟩
        simp only [List.length_cons]
        omega
      · rw [if_neg hab] at h; cases h

theorem tryBoldUnder_spec {t : Str} {e : RichTextElement} {rest : Str}
    (h : tryBoldUnder t = some (e, rest)) : e.textOf ≠ [] ∧ rest.length < t.length := by
  cases t with
  | nil => simp [tryBoldUnder] at h
  | cons a t1 =>
    cases t1 with
    | nil => simp [tryBoldUnder] at h
    | cons b r =>
      simp only [tryBoldUnder] at h
      by_cases hab : a = '_' ∧ b = '_'
      · rw [if_pos hab] at h
        rcases Option.map_eq_some'.mp h with ⟨⟨c', r'⟩, hs, hf⟩
        injection hf with he hr
        subst he hr
        obtain ⟨h1, h2⟩ := scanClose2_spec '_' r c' r' hs
        refine ⟨by simpa [RichTextElement.textOf] using h1, ?_⟩
        simp only [List.length_cons]
        omega
      · rw [if_neg hab] at h; cases h

theorem tryItalStar_spec {t : Str} {e : RichTextElement} {rest : Str}
    (h : tryItalStar t = some (e, rest)) : e.textOf ≠ [] ∧ rest.length < t.length := by
  cases t with
  | nil => simp [tryItalStar] at h
  | cons a r =>
    simp only [tryItalStar] at h
    by_cases ha : a = '*'
    · rw [if_pos ha] at h
      rcases Option.map_eq_some'.mp h with ⟨⟨c', r'⟩, hs, hf⟩
      injection hf with he hr
      subst he hr
      obtain ⟨h1, h2⟩ := scanClose1_spec '*' r c' r' hs
      refine ⟨by simpa [RichTextElement.textOf] using h1, ?_⟩
      simp only [List.length_cons]
      omega
    · rw [if_neg ha] at h; cases h

theorem tryItalUnder_spec {t : Str} {e : RichTextElement} {rest : Str}
    (h : tryItalUnder t = some (e, rest)) : e.textOf ≠ [] ∧ rest.length < t.length := by
  cases t with
  | nil => simp [tryItalUnder] at h
  | cons a r =>
    simp only [tryItalUnder] at h
    by_cases ha : a = '_'
    · rw [if_pos ha] at h
      rcases Option.map_eq_some'.mp h with ⟨⟨c', r'⟩, hs, hf⟩
      injection hf with he hr
      subst he hr
      obtain ⟨h1, h2⟩ := scanClose1_spec '_' r c' r' hs
      refine ⟨by simpa [RichTextElement.textOf] using h1, ?_⟩
      simp only [List.length_cons]
      omega
    · rw [if_neg ha] at h; cases h

theorem tryStrike_spec {t : Str} {e : RichTextElement} {rest : Str}
    (h : tryStrike t = some (e, rest)) : e.textOf ≠ [] ∧ rest.length < t.length := by
  cases t with
  | nil => simp [tryStrike] at h
  | cons a t1 =>
    cases t1 with
    | nil => simp [tryStrike] at h
    | cons b r =>
      simp only [tryStrike] at h
      by_cases hab : a = '~' ∧ b = '~'
      · rw [if_pos hab] at h
        rcases Option.map_eq_some'.mp h with ⟨⟨c', r'⟩, hs, hf⟩
        injection hf with he hr
        subst he hr
        obtain ⟨h1, h2⟩ := scanClose2_spec '~' r c' r' hs
        refine ⟨by simpa [RichTextElement.textOf] using h1, ?_⟩
        simp only [List.length_cons]
        omega
      · rw [if_neg hab] at h; cases h

theorem tryCodeSpan_spec {t : Str} {e : RichTextElement} {rest : Str}
    (h : tryCodeSpan t = some (e, rest)) : e.textOf ≠ [] ∧ rest.length < t.length := by
  cases t with
  | nil => simp [tryCodeSpan] at h
  | cons a r =>
    simp only [tryCodeSpan] at h
    by_cases ha : a = tick
    · rw [if_pos ha] at h
      rcases Option.map_eq_some'.mp h with ⟨⟨c', r'⟩, hs, hf⟩
      injection hf with he hr
      subst he hr
      obtain ⟨h1, h2⟩ := scanToChar_spec tick r c' r' hs
      refine ⟨by simpa [RichTextElement.textOf] using h1, ?_⟩
      simp only [List.length_cons]
      omega
    · rw [if_neg ha] at h; cases h

theorem tryLink_spec {t : Str} {e : RichTextElement} {rest : Str}
    (h : tryLink t = some (e, rest)) : e.textOf ≠ [] ∧ rest.length < t.length := by
  cases t with
  | nil => simp [tryLink] at h
  | cons a r =>
    simp only [tryLink] at h
    by_cases ha : a = '['
    · rw [if_pos ha] at h
      cases hm : scanToChar ']' r with
      | none => rw [hm] at h; cases h
      | some p =>
        obtain ⟨txt, rest2⟩ := p
        rw [hm] at h
        obtain ⟨ht1, ht2⟩ := scanToChar_spec ']' r txt rest2 hm
        cases rest2 with
        | nil => cases h
        | cons b r3 =>
          dsimp only at h
          by_cases hb : b = '('
          · rw [if_pos hb] at h
            rcases Option.map_eq_some'.mp h with ⟨⟨url', r'⟩, hs, hf⟩
            injection hf with he hr
            subst he hr
            obtain ⟨h1, h2⟩ := scanToChar_spec ')' r3 url' r' hs
            refine ⟨by simpa [RichTextElement.textOf] using ht1, ?_⟩
            simp only [List.length_cons] at ht2 ⊢
            omega
          · rw [if_neg hb] at h; cases h
    · rw [if_neg ha] at h; cases h

theorem tryMatchAt_spec {t : Str} {e : RichTextElement} {rest : Str}
    (h : tryMatchAt t = some (e, rest)) : e.textOf ≠ [] ∧ rest.length < t.length := by
  simp only [tryMatchAt] at h
  cases h1 : tryBoldStar t with
  | some v =>
    rw [h1] at h
    simp only [] at h
    obtain rfl : v = (e, rest) := Option.some.inj h
    exact tryBoldStar_spec h1
  | none =>
  rw [h1] at h
  simp only [] at h
  cases h2 : tryBoldUnder t with
  | some v =>
    rw [h2] at h
    simp only [] at h
    obtain rfl : v = (e, rest) := Option.some.inj h
    exact tryBoldUnder_spec h2
  | none =>
  rw [h2] at h
  simp only [] at h
  cases h3 : tryItalStar t with
  | some v =>
    rw [h3] at h
    simp only [] at h
    obtain rfl : v = (e, rest) := Option.some.inj h
    exact tryItalStar_spec h3
  | none =>
  rw [h3] at h
  simp only [] at h
  cases h4 : tryItalUnder t with
  | some v =>
    rw [h4] at h
    simp only [] at h
    obtain rfl : v = (e, rest) := Option.some.inj h
    exact tryItalUnder_spec h4
  | none =>
  rw [h4] at h
  simp only [] at h
  cases h5 : tryStrike t with
  | some v =>
    rw [h5] at h
    simp only [] at h
    obtain rfl : v = (e, rest) := Option.some.inj h
    exact tryStrike_spec h5
  | none =>
  rw [h5] at h
  simp only [] at h
  cases h6 : tryCodeSpan t with
  | some v =>
    rw [h6] at h
    simp only [] at h
    obtain rfl : v = (e, rest) := Option.some.inj h
    exact tryCodeSpan_spec h6
  | none =>
  rw [h6] at h
  simp only [] at h
  exact tryLink_spec h

theorem findFirstMatch_spec : ∀ (t g : Str) (e : RichTextElement) (r : Str),
    findFirstMatch t = some (g, e, r) → e.textOf ≠ [] ∧ r.length < t.length := by
  intro t
  induction t with
  | nil => intro g e r h; simp [findFirstMatch] at h
  | cons c cs ih =>
    intro g e r h
    simp only [findFirstMatch] at h
    cases hm : tryMatchAt (c :: cs) with
    | some v =>
      obtain ⟨e0, r0⟩ := v
      rw [hm] at h
      simp only [] at h
      injection h with h2
      injection h2 with hg h3
      injection h3 with he hr
      subst hg he hr
      exact tryMatchAt_spec hm
    | none =>
      rw [hm] at h
      simp only [] at h
      rcases Option.map_eq_some'.mp h with ⟨⟨g', e', r'⟩, hs, hf⟩
      injection hf with hg h3
      injection h3 with he hr
      subst hg he hr
      obtain ⟨h1, h2⟩ := ih g' e' r' hs
      refine ⟨h1, ?_⟩
      simp only [List.length_cons]
      omega

theorem scanFuel_textOf_ne : ∀ (n : Nat) (t : Str), t.length ≤ n →
    ∀ e ∈ scanFuel n t, e.textOf ≠ [] := by
  intro n
  induction n with
  | zero =>
    intro t ht e he
    have h0 : t = [] := List.length_eq_zero.mp (Nat.le_zero.mp ht)
    subst h0
    simp [scanFuel] at he
  | succ n ih =>
    intro t ht e he
    simp only [scanFuel] at he
    cases hm : findFirstMatch t with
    | none =>
      rw [hm] at he
      by_cases hte : t.isEmpty
      · simp [hte] at he
      · simp only [hte, Bool.false_eq_true, if_false] at he
        have he2 : e = RichTextElement.text t none := by simpa using he
        subst he2
        simp only [RichTextElement.textOf]
        intro h0
        subst h0
        simp at hte
    | some p =>
      obtain ⟨g, e0, r⟩ := p
      rw [hm] at he
      obtain ⟨hg1, hg2⟩ := findFirstMatch_spec t g e0 r hm
      simp only [List.mem_append, List.mem_cons] at he
      rcases he with hgap | he0 | hrec
      · by_cases hg : g.isEmpty
        · simp [hg] at hgap
        · have : e = RichTextElement.text g none := by
            simp only [hg, Bool.false_eq_true, if_false] at hgap
            simpa using hgap
          subst this
          simp only [RichTextElement.textOf]
          intro h0
          subst h0
          simp at hg
      · subst he0
        exact hg1
      · exact ih r (by omega) e hrec

theorem parseInlineMarkdown_textOf_ne (t : Str) :
    ∀ e ∈ parseInlineMarkdown t, e.textOf ≠ [] := by
  intro e he
  simp only [parseInlineMarkdown] at he
  by_cases hc : ((scanFuel t.length t).isEmpty && !t.isEmpty) = true
  · rw [if_pos hc] at he
    have he2 : e = RichTextElement.text t none := by simpa using he
    subst he2
    simp only [RichTextElement.textOf]
    intro h0
    rw [h0] at hc
    simp at hc
  · rw [if_neg hc] at he
    exact scanFuel_textOf_ne t.length t (Nat.le_refl _) e he

theorem parseInlineMarkdown_ne_nil {t : Str} (ht : t ≠ []) :
    parseInlineMarkdown t ≠ [] := by
  simp only [parseInlineMarkdown]
  by_cases hc : ((scanFuel t.length t).isEmpty && !t.isEmpty) = true
  · rw [if_pos hc]; simp
  · rw [if_neg hc]
    intro hnil
    exact hc (by simp [hnil, ht])

/-! ## The separator-cell grammar -/

theorem eq_nil_of_isEmpty_true {l : Str} (h : l.isEmpty = true) : l = [] := by
  cases l with
  | nil => rfl
  | cons a t => simp at h

theorem ne_nil_of_isEmpty_false {l : Str} (h : l.isEmpty = false) : l ≠ [] := by
  intro he
  subst he
  simp at h

theorem not_colon_of_ws {c : Char} (h : isWsChar c = true) : ¬(c = ':') := by
  intro he
  subst he
  exact absurd h (by decide)

theorem not_dash_of_ws {c : Char} (h : isWsChar c = true) : ¬(c = '-') := by
  intro he
  subst he
  exact absurd h (by decide)

theorem stripColon_colon (t : Str) : stripColon (':' :: t) = t := by
  simp [stripColon]

theorem stripColon_cons_ne {c : Char} (t : Str) (h : ¬(c = ':')) :
    stripColon (c :: t) = c :: t := by
  simp [stripColon, h]

theorem dropWhile_append_all {p : Char → Bool} {w r : Str}
    (hw : ∀ c ∈ w, p c = true) : (w ++ r).dropWhile p = r.dropWhile p := by
  induction w with
  | nil => rfl
  | cons a w' ih =>
    have ha : p a = true := hw a (by simp)
    simp only [List.cons_append, List.dropWhile_cons, ha, if_true]
    exact ih (fun c hc => hw c (by simp [hc]))

theorem dropWhile_eq_nil_of_all {p : Char → Bool} {w : Str}
    (hw : ∀ c ∈ w, p c = true) : w.dropWhile p = [] := by
  have h := dropWhile_append_all (r := ([] : Str)) hw
  simpa using h

theorem all_of_dropWhile_eq_nil {p : Char → Bool} : ∀ {w : Str},
    w.dropWhile p = [] → ∀ c ∈ w, p c = true := by
  intro w
  induction w with
  | nil => simp
  | cons a w' ih =>
    intro h c hc
    by_cases ha : p a = true
    · rcases List.mem_cons.mp hc with rfl | hc'
      · exact ha
      · exact ih (by simpa [List.dropWhile_cons, ha] using h) c hc'
    · simp [List.dropWhile_cons, ha] at h

theorem takeWhile_append_not {p : Char → Bool} {w r : Str}
    (hw : ∀ c ∈ w, p c = true) (hr : ∀ c, r.head? = some c → p c = false) :
    (w ++ r).takeWhile p = w ∧ (w ++ r).dropWhile p = r := by
  induction w with
  | nil =>
    cases r with
    | nil => simp
    | cons b r' =>
      have hb := hr b rfl
      simp [List.takeWhile_cons, List.dropWhile_cons, hb]
  | cons a w' ih =>
    have ha : p a = true := hw a (by simp)
    obtain ⟨h1, h2⟩ := ih (fun c hc => hw c (by simp [hc]))
    constructor
    · simp [List.takeWhile_cons, ha, h1]
    · simp [List.dropWhile_cons, ha, h2]

theorem sepCellOk_iff (cell : Str) :
    sepCellOk cell = true ↔
    ∃ w₁ c₁ ds c₂ w₂ : Str,
      cell = w₁ ++ c₁ ++ ds ++ c₂ ++ w₂ ∧
      (∀ c ∈ w₁, isWsChar c = true) ∧ (∀ c ∈ w₂, isWsChar c = true) ∧
      (c₁ = [] ∨ c₁ = [':']) ∧ (c₂ = [] ∨ c₂ = [':']) ∧
      ds ≠ [] ∧ (∀ c ∈ ds, c = '-') := by
  have hwhole : cell = cell.takeWhile isWsChar ++ cell.dropWhile isWsChar :=
    (List.takeWhile_append_dropWhile isWsChar cell).symm
  have hw₁all : ∀ c ∈ cell.takeWhile isWsChar, isWsChar c = true :=
    fun c hc => List.mem_takeWhile_imp hc
  constructor
  · intro h
    simp only [sepCellOk, Bool.and_eq_true, Bool.not_eq_eq_eq_not, Bool.not_true] at h
    obtain ⟨hds, hrest⟩ := h
    cases hr1 : cell.dropWhile isWsChar with
    | nil =>
      rw [hr1] at hds
      simp [stripColon] at hds
    | cons a1 t1 =>
      rw [hr1] at hds hrest hwhole
      simp only [stripColon] at hds hrest
      by_cases ha1 : a1 = ':'
      · rw [if_pos ha1] at hds hrest
        subst ha1
        have ht1 : t1 = t1.takeWhile (fun c => c = '-') ++
            t1.dropWhile (fun c => c = '-') :=
          (List.takeWhile_append_dropWhile _ t1).symm
        have hdsne : t1.takeWhile (fun c => c = '-') ≠ [] := ne_nil_of_isEmpty_false hds
        have hdash : ∀ c ∈ t1.takeWhile (fun c => c = '-'), c = '-' :=
          fun c hc => by simpa using List.mem_takeWhile_imp hc
        cases hr3 : t1.dropWhile (fun c => c = '-') with
        | nil =>
          rw [hr3, List.append_nil] at ht1
          have heq : cell = cell.takeWhile isWsChar ++
              ':' :: t1.takeWhile (fun c => c = '-') := by
            rw [← ht1]
            exact hwhole
          refine ⟨cell.takeWhile isWsChar, [':'], t1.takeWhile (fun c => c = '-'),
            [], [], ?_, hw₁all, by simp, Or.inr rfl, Or.inl rfl, hdsne, hdash⟩
          simpa [List.append_assoc] using heq
        | cons a3 t3 =>
          rw [hr3] at hrest ht1
          simp only [stripColon] at hrest
          by_cases ha3 : a3 = ':'
          · rw [if_pos ha3] at hrest
            subst ha3
            have hw₂ : ∀ c ∈ t3, isWsChar c = true :=
              all_of_dropWhile_eq_nil (eq_nil_of_isEmpty_true hrest)
            have heq : cell = cell.takeWhile isWsChar ++
                ':' :: (t1.takeWhile (fun c => c = '-') ++ ':' :: t3) := by
              rw [← ht1]
              exact hwhole
            refine ⟨cell.takeWhile isWsChar, [':'], t1.takeWhile (fun c => c = '-'),
              [':'], t3, ?_, hw₁all, hw₂, Or.inr rfl, Or.inr rfl, hdsne, hdash⟩
            simpa [List.append_assoc] using heq
          · rw [if_neg ha3] at hrest
            have hw₂ : ∀ c ∈ a3 :: t3, isWsChar c = true :=
              all_of_dropWhile_eq_nil (eq_nil_of_isEmpty_true hrest)
            have heq : cell = cell.takeWhile isWsChar ++
                ':' :: (t1.takeWhile (fun c => c = '-') ++ a3 :: t3) := by
              rw [← ht1]
              exact hwhole
            refine ⟨cell.takeWhile isWsChar, [':'], t1.takeWhile (fun c => c = '-'),
              [], a3 :: t3, ?_, hw₁all, hw₂, Or.inr rfl, Or.inl rfl, hdsne, hdash⟩
            simpa [List.append_assoc] using heq
      · rw [if_neg ha1] at hds hrest
        have ht1 : a1 :: t1 = (a1 :: t1).takeWhile (fun c => c = '-') ++
            (a1 :: t1).dropWhile (fun c => c = '-') :=
          (List.takeWhile_append_dropWhile _ _).symm
        have hdsne : (a1 :: t1).takeWhile (fun c => c = '-') ≠ [] :=
          ne_nil_of_isEmpty_false hds
        have hdash : ∀ c ∈ (a1 :: t1).takeWhile (fun c => c = '-'), c = '-' :=
          fun c hc => by simpa using List.mem_takeWhile_imp hc
        cases hr3 : (a1 :: t1).dropWhile (fun c => c = '-') with
        | nil =>
          rw [hr3, List.append_nil] at ht1
          have heq : cell = cell.takeWhile isWsChar ++
              (a1 :: t1).takeWhile (fun c => c = '-') := by
            rw [← ht1]
            exact hwhole
          refine ⟨cell.takeWhile isWsChar, [], (a1 :: t1).takeWhile (fun c => c = '-'),
            [], [], ?_, hw₁all, by simp, Or.inl rfl, Or.inl rfl, hdsne, hdash⟩
          simpa [List.append_assoc] using heq
        | cons a3 t3 =>
          rw [hr3] at hrest ht1
          simp only [stripColon] at hrest
          by_cases ha3 : a3 = ':'
          · rw [if_pos ha3] at hrest
            subst ha3
            have hw₂ : ∀ c ∈ t3, isWsChar c = true :=
              all_of_dropWhile_eq_nil (eq_nil_of_isEmpty_true hrest)
            have heq : cell = cell.takeWhile isWsChar ++
                ((a1 :: t1).takeWhile (fun c => c = '-') ++ ':' :: t3) := by
              rw [← ht1]
              exact hwhole
            refine ⟨cell.takeWhile isWsChar, [], (a1 :: t1).takeWhile (fun c => c = '-'),
              [':'], t3, ?_, hw₁all, hw₂, Or.inl rfl, Or.inr rfl, hdsne, hdash⟩
            simpa [List.append_assoc] using heq
          · rw [if_neg ha3] at hrest
            have hw₂ : ∀ c ∈ a3 :: t3, isWsChar c = true :=
              all_of_dropWhile_eq_nil (eq_nil_of_isEmpty_true hrest)
            have heq : cell = cell.takeWhile isWsChar ++
                ((a1 :: t1).takeWhile (fun c => c = '-') ++ a3 :: t3) := by
              rw [← ht1]
              exact hwhole
            refine ⟨cell.takeWhile isWsChar, [], (a1 :: t1).takeWhile (fun c => c = '-'),
              [], a3 :: t3, ?_, hw₁all, hw₂, Or.inl rfl, Or.inl rfl, hdsne, hdash⟩
            simpa [List.append_assoc] using heq
  · rintro ⟨w₁, c₁, ds, c₂, w₂, rfl, hw₁, hw₂, hc₁, hc₂, hds, hdash⟩
    cases ds with
    | nil => exact absurd rfl hds
    | cons d0 dt =>
    have hd0 : d0 = '-' := hdash d0 (by simp)
    subst hd0
    have hdt : ∀ c ∈ dt, c = '-' := fun c hc => hdash c (by simp [hc])
    have hargs : w₁ ++ c₁ ++ ('-' :: dt) ++ c₂ ++ w₂ =
        w₁ ++ (c₁ ++ ('-' :: (dt ++ (c₂ ++ w₂)))) := by
      simp [List.append_assoc]
    rw [hargs]
    have hfront : stripColon ((w₁ ++ (c₁ ++ ('-' :: (dt ++ (c₂ ++ w₂))))).dropWhile
        isWsChar) = '-' :: (dt ++ (c₂ ++ w₂)) := by
      rw [dropWhile_append_all hw₁]
      rcases hc₁ with rfl | rfl
      · rw [List.nil_append, List.dropWhile_cons,
          if_neg (by decide : ¬(isWsChar '-' = true))]
        exact stripColon_cons_ne _ (by decide)
      · simp only [List.cons_append, List.nil_append]
        rw [List.dropWhile_cons, if_neg (by decide : ¬(isWsChar ':' = true))]
        exact stripColon_colon _
    have hhd : ∀ c, (c₂ ++ w₂).head? = some c → (decide (c = '-')) = false := by
      intro c hc
      rcases hc₂ with rfl | rfl
      · simp only [List.nil_append] at hc
        cases w₂ with
        | nil => simp at hc
        | cons x xs =>
          have hx : x = c := by simpa using hc
          subst hx
          simpa using not_dash_of_ws (hw₂ x (by simp))
      · have hx : (':' : Char) = c := by simpa using hc
        subst hx
        decide
    have h2 := takeWhile_append_not (p := fun c => c = '-')
      (w := '-' :: dt) (r := c₂ ++ w₂)
      (fun c hc => by simpa using hdash c (by simpa using hc)) hhd
    have hm1 : ('-' :: (dt ++ (c₂ ++ w₂))).takeWhile (fun c => c = '-') =
        '-' :: dt := by
      rw [← List.cons_append]
      exact h2.1
    have hm2 : ('-' :: (dt ++ (c₂ ++ w₂))).dropWhile (fun c => c = '-') =
        c₂ ++ w₂ := by
      rw [← List.cons_append]
      exact h2.2
    have hback : ((stripColon (c₂ ++ w₂)).dropWhile isWsChar).isEmpty = true := by
      rcases hc₂ with rfl | rfl
      · rw [List.nil_append]
        have hsc : stripColon w₂ = w₂ := by
          cases w₂ with
          | nil => rfl
          | cons x xs =>
            exact stripColon_cons_ne _ (not_colon_of_ws (hw₂ x (by simp)))
        rw [hsc, dropWhile_eq_nil_of_all hw₂]
        rfl
      · simp only [List.cons_append, List.nil_append]
        rw [stripColon_colon, dropWhile_eq_nil_of_all hw₂]
        rfl
    simp only [sepCellOk, hfront, hm1, hm2, hback]
    simp

theorem isSeparatorRow_iff (line : Str) :
    isSeparatorRow line = true ↔
      (line.head? = some '|' ∧
       ∀ cell ∈ splitOnChar '|' (stripTrailPipe (stripLeadPipe line)),
         sepCellOk cell = true) := by
  cases line with
  | nil => simp [isSeparatorRow]
  | cons c rest =>
    simp only [isSeparatorRow]
    by_cases hc : c = '|'
    · rw [if_pos hc]
      subst hc
      simp [List.all_eq_true]
    · rw [if_neg hc]
      simp [hc]

/-- C6.  The alignment-separator recognizer accepts a line exactly when it
starts with `|` and, after stripping one leading and one trailing `|`,
every `|`-separated cell is optional whitespace, an optional colon, one or
more dashes, an optional colon and optional whitespace; the two concrete
lines of the spec are accepted/rejected accordingly, and a candidate whose
second line fails the grammar is abandoned by the locator. -/
theorem isSeparatorRow_grammar :
    (∀ line : Str, isSeparatorRow line = true ↔
      (line.head? = some '|' ∧
       ∀ cell ∈ splitOnChar '|' (stripTrailPipe (stripLeadPipe line)),
         ∃ w₁ c₁ ds c₂ w₂ : Str,
           cell = w₁ ++ c₁ ++ ds ++ c₂ ++ w₂ ∧
           (∀ c ∈ w₁, isWsChar c = true) ∧ (∀ c ∈ w₂, isWsChar c = true) ∧
           (c₁ = [] ∨ c₁ = [':']) ∧ (c₂ = [] ∨ c₂ = [':']) ∧
           ds ≠ [] ∧ (∀ c ∈ ds, c = '-'))) ∧
    isSeparatorRow (str "| :--- | ---: | :---: |") = true ∧
    isSeparatorRow (str "| abc | --- |") = false ∧
    extractFirstTable (str "| a | b |\n| abc | --- |\n| 1 | 2 |") = none := by
  refine ⟨?_, by decide, by decide, by decide⟩
  intro line
  rw [isSeparatorRow_iff line]
  constructor
  · rintro ⟨h1, h2⟩
    exact ⟨h1, fun cell hc => (sepCellOk_iff cell).mp (h2 cell hc)⟩
  · rintro ⟨h1, h2⟩
    exact ⟨h1, fun cell hc => (sepCellOk_iff cell).mpr (h2 cell hc)⟩

/-! ## C7, C8, C10: the cell builder and the tokenizer -/

/-- C7.  The tokenizer tries the pattern families in the source's
precedence order (bold first), and on `"**bold** and *italic*"` the Cell
Builder produces, in order, a bold run, an unstyled gap run and an italic
run. -/
theorem parseInline_example :
    (∀ t : Str, (tryBoldStar t).isSome = true → tryMatchAt t = tryBoldStar t) ∧
    parseInlineMarkdown (str "**bold** and *italic*") =
      [RichTextElement.text (str "bold") (some { bold := true }),
       RichTextElement.text (str " and ") none,
       RichTextElement.text (str "italic") (some { italic := true })] ∧
    buildCell (str "**bold** and *italic*") =
      TableCell.rich_text
        [[RichTextElement.text (str "bold") (some { bold := true }),
          RichTextElement.text (str " and ") none,
          RichTextElement.text (str "italic") (some { italic := true })]] := by
  refine ⟨?_, by decide, by decide⟩
  intro t h
  cases ho : tryBoldStar t with
  | none => rw [ho] at h; cases h
  | some v => simp [tryMatchAt, ho]

/-- C8.  A cell whose trimmed text is empty becomes the single-space plain
cell, and no cell the builder produces carries empty text: raw cells have
non-empty text and every run of a rich cell's (non-empty) section has
non-empty text. -/
theorem buildCell_never_empty :
    (∀ s : Str, trim s = [] → buildCell s = TableCell.raw_text [' ']) ∧
    (∀ (s : Str) (txt : Str), buildCell s = TableCell.raw_text txt → txt ≠ []) ∧
    (∀ (s : Str) (secs : List (List RichTextElement)),
      buildCell s = TableCell.rich_text secs →
      secs ≠ [] ∧ ∀ sec ∈ secs, sec ≠ [] ∧ ∀ e ∈ sec, e.textOf ≠ []) := by
  have hcell : ∀ s : Str, (if (trim s).isEmpty then [' '] else trim s) ≠ [] := by
    intro s
    by_cases h : (trim s).isEmpty
    · rw [if_pos h]; simp
    · rw [if_neg h]
      exact fun he => h (by simp [he])
  refine ⟨?_, ?_, ?_⟩
  · intro s h
    simp only [buildCell, h]
    decide
  · intro s txt h
    simp only [buildCell] at h
    by_cases hf : hasInlineFormatting (if (trim s).isEmpty then [' '] else trim s)
    · rw [if_pos hf] at h; cases h
    · rw [if_neg hf] at h
      injection h with he
      rw [← he]
      exact hcell s
  · intro s secs h
    simp only [buildCell] at h
    by_cases hf : hasInlineFormatting (if (trim s).isEmpty then [' '] else trim s)
    · rw [if_pos hf] at h
      injection h with he
      rw [← he]
      refine ⟨by simp, ?_⟩
      intro sec hsec
      have hs2 : sec = parseInlineMarkdown
          (if (trim s).isEmpty then [' '] else trim s) := by simpa using hsec
      subst hs2
      exact ⟨parseInlineMarkdown_ne_nil (hcell s),
        fun e he => parseInlineMarkdown_textOf_ne _ e he⟩
    · rw [if_neg hf] at h; cases h

/-- C10.  Every element `parseInlineMarkdown` returns carries non-empty
text: gaps and the trailing leftover are only emitted when non-empty, and
every pattern family requires at least one character of body. -/
theorem parseInline_runs_nonempty (s : Str) (e : RichTextElement)
    (h : e ∈ parseInlineMarkdown s) : e.textOf ≠ [] :=
  parseInlineMarkdown_textOf_ne s e h

theorem parseInline_runs_nonempty_witness :
    RichTextElement.text (str "bold") (some { bold := true }) ∈
      parseInlineMarkdown (str "**bold**x") ∧
    (RichTextElement.text (str "bold") (some { bold := true })).textOf ≠ [] :=
  ⟨by decide, parseInline_runs_nonempty (str "**bold**x") _ (by decide)⟩

/-! ## C4: block assembly row shape -/

/-- C4 (amended: the placeholder character is U+2013 EN DASH, not an
em-dash).  Every assembled row has exactly `headers.length` cells: data
cells are taken by header index, missing cells become the dash
placeholder, excess cells are dropped; for header `["a","b"]` and data row
`["1"]` the second row is `["1", placeholder]`. -/
theorem buildTableBlock_row_shape :
    (∀ tb : TableData, ∀ row ∈ (buildTableBlock tb).rows,
      row.length = tb.headers.length) ∧
    (∀ tb : TableData, (buildTableBlock tb).rows =
      tb.headers.map (fun h => buildCell (if h.isEmpty then [' '] else h)) ::
      tb.rows.map (fun row => (List.range tb.headers.length).map
        (fun i => buildCell (row.getD i dashStr)))) ∧
    (buildTableBlock exShortRow).rows =
      [[TableCell.raw_text (str "a"), TableCell.raw_text (str "b")],
       [TableCell.raw_text (str "1"), TableCell.raw_text [enDash]]] := by
  refine ⟨?_, fun tb => rfl, by decide⟩
  intro tb row hrow
  simp only [buildTableBlock] at hrow
  rcases List.mem_cons.mp hrow with rfl | hd
  · simp
  · rcases List.mem_map.mp hd with ⟨r, -, rfl⟩
    simp

/-- C4 counterexample: at header `["a","b"]` and data row `["1"]` the
padded second cell is the EN DASH (U+2013) placeholder, not an em-dash
(U+2014) as the claim states. -/
theorem placeholder_is_en_dash_not_em_dash :
    ((buildTableBlock exShortRow).rows.getD 1 []).getD 1 (TableCell.raw_text []) =
      TableCell.raw_text [Char.ofNat 8211] ∧
    ((buildTableBlock exShortRow).rows.getD 1 []).getD 1 (TableCell.raw_text []) ≠
      TableCell.raw_text [Char.ofNat 8212] := by
  decide

/-! ## C9: the raw_text-only and rich-text implementations agree -/

theorem buildCell_eq_raw {c : Str} (htrim : trim c = c)
    (hfmt : hasInlineFormatting c = false) :
    buildCell c = TableCell.raw_text (if c.isEmpty then [' '] else c) := by
  cases c with
  | nil => decide
  | cons a t =>
    have h1 : (trim (a :: t)).isEmpty = false := by rw [htrim]; rfl
    simp only [buildCell, h1, Bool.false_eq_true, if_false, htrim, hfmt,
      List.isEmpty_cons]

/-- C9.  The two implementations share one locator (their `extractFirstTable`
code is identical, so the functions are extensionally equal), and whenever
no retained cell carries an inline-formatting marker and every data row
supplies at least `headers.length` cells, the two facades return identical
results. -/
theorem raw_rich_implementations_agree :
    (∀ s : Str, extractFirstTableRaw s = extractFirstTable s) ∧
    (∀ (s : Str) (t : TableData), extractFirstTable s = some t →
      (∀ c : Str, (c ∈ t.headers ∨ ∃ r ∈ t.rows, c ∈ r) →
        hasInlineFormatting c = false) →
      (∀ r ∈ t.rows, t.headers.length ≤ r.length) →
      extractSlackTableBlockRaw s = extractSlackTableBlock s) := by
  have hloc : ∀ s : Str, extractFirstTableRaw s = extractFirstTable s :=
    fun _ => rfl
  refine ⟨hloc, ?_⟩
  intro s t h hfmt hlen
  obtain ⟨st, k, m, hstq, -, -, hth, htr, -, -, -, -, -, -, hhtrim, hrtrim⟩ :=
    extractFirstTable_some_spec h
  have hcelltrim : ∀ c : Str, (c ∈ t.headers ∨ ∃ r ∈ t.rows, c ∈ r) →
      trim c = c := by
    intro c hc
    rcases hc with hch | ⟨r, hr, hcr⟩
    · rw [hth] at hch
      exact hhtrim c (List.mem_of_mem_take hch)
    · rw [htr] at hr
      rcases List.mem_map.mp hr with ⟨r', hr', rfl⟩
      exact hrtrim r' (List.mem_of_mem_take hr') c (List.mem_of_mem_take hcr)
  have hife : ∀ c : Str, c ≠ [] → (if c.isEmpty then ([' '] : Str) else c) = c := by
    intro c hc
    cases c with
    | nil => exact absurd rfl hc
    | cons a t2 => rfl
  have hheader : t.headers.map
      (fun h => TableCell.raw_text (if h.isEmpty then [' '] else h)) =
      t.headers.map (fun h => buildCell (if h.isEmpty then [' '] else h)) := by
    apply List.map_congr_left
    intro hd hh
    dsimp only
    by_cases hhe : hd = []
    · subst hhe; decide
    · rw [hife hd hhe,
        buildCell_eq_raw (hcelltrim hd (Or.inl hh)) (hfmt hd (Or.inl hh)),
        hife hd hhe]
  have hdata : t.rows.map (fun row => (List.range t.headers.length).map
      (fun i =>
        TableCell.raw_text
          (if (trim (row.getD i dashRawStr)).isEmpty then [' ']
           else trim (row.getD i dashRawStr)))) =
      t.rows.map (fun row => (List.range t.headers.length).map
        (fun i => buildCell (row.getD i dashStr))) := by
    apply List.map_congr_left
    intro row hrow
    dsimp only
    apply List.map_congr_left
    intro i hi
    dsimp only
    have hi1 : i < t.headers.length := List.mem_range.mp hi
    have hir : i < row.length := lt_of_lt_of_le hi1 (hlen row hrow)
    have hg1 : row.getD i dashRawStr = row.get ⟨i, hir⟩ := List.getD_eq_get _ _ hir
    have hg2 : row.getD i dashStr = row.get ⟨i, hir⟩ := List.getD_eq_get _ _ hir
    have hcm : row.get ⟨i, hir⟩ ∈ row := List.get_mem row i hir
    have hct : trim (row.get ⟨i, hir⟩) = row.get ⟨i, hir⟩ :=
      hcelltrim _ (Or.inr ⟨row, hrow, hcm⟩)
    have hcf : hasInlineFormatting (row.get ⟨i, hir⟩) = false :=
      hfmt _ (Or.inr ⟨row, hrow, hcm⟩)
    rw [hg1, hg2, hct, buildCell_eq_raw hct hcf]
  have hblock : buildTableBlockRaw t = buildTableBlock t := by
    simp only [buildTableBlockRaw, buildTableBlock]
    rw [hheader, hdata]
  simp only [extractSlackTableBlockRaw, extractSlackTableBlock, hloc s, h, hblock]

theorem raw_rich_implementations_agree_witness :
    extractSlackTableBlockRaw exInput2 = extractSlackTableBlock exInput2 := by
  refine raw_rich_implementations_agree.2 exInput2 exTable2 (by decide) ?_ ?_
  · intro c hc
    rcases hc with hch | ⟨r, hr, hcr⟩
    · rcases (show c = str "a" ∨ c = str "b" by
        simpa [exTable2] using hch) with rfl | rfl <;> decide
    · have hr2 : r = [str "1", str "2"] := by simpa [exTable2] using hr
      subst hr2
      rcases (show c = str "1" ∨ c = str "2" by simpa using hcr) with rfl | rfl <;>
        decide
  · intro r hr
    have hr2 : r = [str "1", str "2"] := by simpa [exTable2] using hr
    subst hr2
    decide

/-! ## Witnesses instantiating the offset and splice theorems -/

set_option maxRecDepth 1000000 in
theorem extractFirstTable_limits_offsets_witness :
    extractFirstTable exWideInput = some exWideTable ∧
    exWideTable.headers.length ≤ 20 ∧
    (exWideTable.headers.length = 20 ∧ exWideTable.rows.length = 99 ∧
     (scanLoop (splitOnChar '\n' exWideInput) 0 initScan).headers.length = 21 ∧
     (scanLoop (splitOnChar '\n' exWideInput) 0 initScan).rows.length = 100 ∧
     exWideInput.drop exWideTable.endPos = str "post") := by
  have h : extractFirstTable exWideInput = some exWideTable := by decide
  exact ⟨h, (extractFirstTable_limits_offsets exWideInput exWideTable h).1, by decide⟩

theorem extract_splice_reconstructs_witness :
    extractFirstTable exInput = some exTable ∧
    exInput.take exTable.start ++
      (exInput.drop exTable.start).take (exTable.endPos - exTable.start) ++
      exInput.drop exTable.endPos = exInput :=
  ⟨by decide, (extract_splice_reconstructs exInput exTable (by decide)).1⟩

end SlackTables
